import Mathlib

/-!
Shallow embedding of the RSA core of `rsa_cipher.py` (Miller-Rabin primality
testing, prime generation, extended Euclid / modular inverse, keypair
construction, integer and text encryption), together with theorems settling
the specification claims.

Randomness is modelled explicitly: every value the Python code draws from
`secrets` (`randbelow`, `randbits`) becomes an input of the embedded
function, and the randomized procedures (`generate_prime`,
`choose_random_coprime`, `generate_keypair`) become relations between the
drawn values and the returned result.
-/

namespace RsaCipher

/-- The failure kinds of the engine (Python raises `ValueError` / `AssertionError`;
the specification names them `InvalidParameter`, `NoInverseExists`,
`MessageTooLarge`, `DecodingError`). -/
inductive RsaError where
  | InvalidParameter
  | NoInverseExists
  | MessageTooLarge
  | DecodingError
deriving DecidableEq, Repr

deriving instance DecidableEq for Except

/-- Fuel-driven square-and-multiply, the model of Python's three-argument
`pow(b, e, n)`.  The fuel is only a structural-recursion device; `powMod`
supplies `e` itself as fuel, which always suffices since the exponent halves
at every step. -/
def powModAux (n : Nat) : Nat → Nat → Nat → Nat
  | 0, _, _ => 1 % n
  | fuel + 1, b, e =>
    if e = 0 then 1 % n
    else
      let h := powModAux n fuel (b * b % n) (e / 2)
      if e % 2 = 1 then h * b % n else h

/-- Model of Python's `pow(b, e, n)`: modular exponentiation. -/
def powMod (b e n : Nat) : Nat := powModAux n e b e

theorem powModAux_eq (n : Nat) : ∀ fuel e, e ≤ fuel → ∀ b, powModAux n fuel b e = b ^ e % n := by
  intro fuel
  induction fuel with
  | zero =>
    intro e he b
    interval_cases e
    simp [powModAux]
  | succ fuel ih =>
    intro e he b
    by_cases he0 : e = 0
    · simp [powModAux, he0]
    · have hrec : e / 2 ≤ fuel := by omega
      have h2 := ih (e / 2) hrec (b * b % n)
      have hbb : (b * b % n) ^ (e / 2) % n = b ^ (2 * (e / 2)) % n := by
        rw [← Nat.pow_mod, pow_mul, pow_two]
      rcases Nat.even_or_odd e with hev | hod
      · have hodd : ¬ e % 2 = 1 := by
          rcases hev with ⟨k, hk⟩
          omega
        have he2 : 2 * (e / 2) = e := by
          rcases hev with ⟨k, hk⟩
          omega
        simp only [powModAux, he0, if_false, hodd, if_neg, ite_false]
        rw [h2, hbb, he2]
      · have hodd : e % 2 = 1 := Nat.odd_iff.mp hod
        have he2 : 2 * (e / 2) + 1 = e := by omega
        simp only [powModAux, he0, if_false, hodd, ite_true]
        rw [h2, hbb]
        calc b ^ (2 * (e / 2)) % n * b % n
            = b ^ (2 * (e / 2)) * b % n := Nat.mod_mul_mod ..
          _ = b ^ e % n := by rw [← pow_succ, he2]

/-- `powMod` computes exactly `b ^ e mod n`. -/
theorem powMod_eq (b e n : Nat) : powMod b e n = b ^ e % n :=
  powModAux_eq n e e (Nat.le_refl e) b

/-- The small-prime list of `is_probable_prime`'s trial-division prefilter. -/
def smallPrimes : List Nat := [2, 3, 5, 7, 11, 13, 17, 19, 23, 29]

/-- The prefilter loop: `for p in small_primes: if n % p == 0: return n == p`.
`some b` means the loop returned `b`; `none` means it fell through. -/
def smallPrimeCheck : List Nat → Nat → Option Bool
  | [], _ => none
  | p :: ps, n => if n % p = 0 then some (n == p) else smallPrimeCheck ps n

/-- The loop `while d % 2 == 0: d //= 2; s += 1`, splitting `d0 = 2^s * d`
with `d` odd.  Fuel-driven; `decompose` passes `d0` as fuel, which suffices
because `d` at least halves whenever the loop repeats. -/
def decomposeAux : Nat → Nat → Nat × Nat
  | 0, d => (d, 0)
  | fuel + 1, d =>
    if d % 2 = 0 then
      let r := decomposeAux fuel (d / 2)
      (r.1, r.2 + 1)
    else (d, 0)

/-- Split `d0` as `(d, s)` with `d0 = 2^s * d`, `d` odd (for `d0 > 0`). -/
def decompose (d0 : Nat) : Nat × Nat := decomposeAux d0 d0

theorem decomposeAux_spec : ∀ fuel d, 0 < d → d ≤ fuel →
    d = 2 ^ (decomposeAux fuel d).2 * (decomposeAux fuel d).1 ∧ (decomposeAux fuel d).1 % 2 = 1 := by
  intro fuel
  induction fuel with
  | zero => intro d h1 h2; omega
  | succ fuel ih =>
    intro d h1 h2
    by_cases hd : d % 2 = 0
    · have hrec := ih (d / 2) (by omega) (by omega)
      simp only [decomposeAux, hd, ite_true]
      constructor
      · rw [pow_succ, mul_comm (2 ^ (decomposeAux fuel (d / 2)).2) 2, mul_assoc]
        have := hrec.1
        omega
      · exact hrec.2
    · simp only [decomposeAux, hd, ite_false]
      constructor
      · simp
      · omega

theorem decompose_spec (d0 : Nat) (h : 0 < d0) :
    d0 = 2 ^ (decompose d0).2 * (decompose d0).1 ∧ (decompose d0).1 % 2 = 1 :=
  decomposeAux_spec d0 d0 h (Nat.le_refl d0)

/-- The inner squaring loop of one Miller-Rabin round:
`for _ in range(count): x = pow(x, 2, n); if x == n - 1: break`, returning
whether the loop found `n - 1` (i.e. the round passes). -/
def mrSquares (n : Nat) : Nat → Nat → Bool
  | _, 0 => false
  | x, count + 1 =>
    let x2 := powMod x 2 n
    if x2 = n - 1 then true else mrSquares n x2 count

/-- One Miller-Rabin round.  `r` is the value drawn by
`secrets.randbelow(n - 3)`, so the base is `a = r + 2`.  Returns `true`
when the round passes (does not declare `n` composite). -/
def mrRound (n d s r : Nat) : Bool :=
  let x := powMod (r + 2) d n
  if x = 1 ∨ x = n - 1 then true else mrSquares n x (s - 1)

/-- The `for _ in range(k)` loop of rounds; the list holds the `k` random
draws.  Returns `false` as soon as one round declares `n` composite. -/
def mrRounds (n d s : Nat) : List Nat → Bool
  | [] => true
  | r :: rs => mrRound n d s r && mrRounds n d s rs

/-- Model of `is_probable_prime(n, k)`.  `rnd` is the list of the `k` values
drawn by `secrets.randbelow(n - 3)` across the rounds (ignored on the early
small-prime paths, where the Python code returns before drawing). -/
def is_probable_prime (n : Nat) (rnd : List Nat) : Bool :=
  if n < 2 then false
  else
    match smallPrimeCheck smallPrimes n with
    | some b => b
    | none =>
      let ds := decompose (n - 1)
      mrRounds n ds.1 ds.2 rnd

/-- Fuel-driven bit length; `bitLen` passes `n` as fuel (always enough since
the argument halves each step).  Models Python's `int.bit_length()`. -/
def bitLenAux : Nat → Nat → Nat
  | 0, _ => 0
  | fuel + 1, n => if n = 0 then 0 else bitLenAux fuel (n / 2) + 1

/-- Model of Python's `n.bit_length()`. -/
def bitLen (n : Nat) : Nat := bitLenAux n n

theorem bitLenAux_zero (fuel : Nat) : bitLenAux fuel 0 = 0 := by
  cases fuel <;> simp [bitLenAux]

theorem bitLenAux_eq_of_bounds : ∀ fuel n k, n ≤ fuel → 2 ^ k ≤ n → n < 2 ^ (k + 1) →
    bitLenAux fuel n = k + 1 := by
  intro fuel
  induction fuel with
  | zero =>
    intro n k h1 h2 h3
    have := Nat.one_le_two_pow (n := k)
    omega
  | succ fuel ih =>
    intro n k h1 h2 h3
    have hn0 : n ≠ 0 := by
      have := Nat.one_le_two_pow (n := k)
      omega
    simp only [bitLenAux, hn0, ite_false]
    match k with
    | 0 =>
      have : n = 1 := by omega
      subst this
      simp [bitLenAux_zero]
    | k + 1 =>
      have h2' : 2 ^ k ≤ n / 2 := by
        rw [pow_succ] at h2
        omega
      have h3' : n / 2 < 2 ^ (k + 1) := by
        rw [pow_succ] at h3
        omega
      rw [ih (n / 2) k (by omega) h2' h3']

theorem bitLen_eq_of_bounds (n k : Nat) (h2 : 2 ^ k ≤ n) (h3 : n < 2 ^ (k + 1)) :
    bitLen n = k + 1 :=
  bitLenAux_eq_of_bounds n n k (Nat.le_refl n) h2 h3

theorem bitLenAux_le : ∀ fuel n k, n ≤ fuel → n < 2 ^ k → bitLenAux fuel n ≤ k := by
  intro fuel
  induction fuel with
  | zero =>
    intro n k h1 h2
    interval_cases n
    simp [bitLenAux]
  | succ fuel ih =>
    intro n k h1 h2
    by_cases hn0 : n = 0
    · simp [bitLenAux, hn0]
    · simp only [bitLenAux, hn0, ite_false]
      match k with
      | 0 => omega
      | k + 1 =>
        have : n / 2 < 2 ^ k := by
          rw [pow_succ] at h2
          omega
        have := ih (n / 2) k (by omega) this
        omega

theorem bitLen_le (n k : Nat) (h : n < 2 ^ k) : bitLen n ≤ k :=
  bitLenAux_le n n k (Nat.le_refl n) h

theorem bitLen_lt (n : Nat) : n < 2 ^ bitLen n := by
  rcases Nat.eq_zero_or_pos n with h | h
  · subst h
    simp [bitLen, bitLenAux]
  · have hlog : 2 ^ (Nat.log2 n) ≤ n := Nat.log2_self_le (by omega)
    have hlog2 : n < 2 ^ (Nat.log2 n + 1) := Nat.lt_log2_self
    rw [bitLen_eq_of_bounds n (Nat.log2 n) hlog hlog2]
    exact hlog2

theorem bitLen_gt (n k : Nat) (h : 2 ^ k ≤ n) : k < bitLen n := by
  by_contra hc
  have : bitLen n ≤ k := by omega
  have := bitLen_lt n
  have : n < 2 ^ k := lt_of_lt_of_le this (Nat.pow_le_pow_right (by omega) (by omega))
  omega

/-- The oracle-pass postcondition: some sequence of `k` random draws made
`is_probable_prime` return `True`.  This is exactly what the retry loop of
`generate_prime` establishes about its output. -/
def OraclePasses (p k : Nat) : Prop :=
  ∃ rnd : List Nat, rnd.length = k ∧ is_probable_prime p rnd = true

/-- Output relation of `generate_prime(bits)`: the returned value is
`secrets.randbits(bits) | (1 << (bits - 1)) | 1` for some draw, and it passed
`is_probable_prime` at the default round count `k = 40`. -/
def GeneratePrimeOutput (bits p : Nat) : Prop :=
  ∃ r : Nat, r < 2 ^ bits ∧ p = r ||| 2 ^ (bits - 1) ||| 1 ∧ OraclePasses p 40

/-- Fuel-driven extended Euclid, the model of the recursive `egcd(a, b)`.
Python's `%` and `//` on integers are floor-convention, i.e. `Int.fmod` and
`Int.fdiv`.  The fuel is a structural-recursion device; `egcd` supplies
`b.natAbs + 1`, which suffices for every call with `b ≥ 0`. -/
def egcdAux : Nat → Int → Int → Int × Int × Int
  | 0, a, _ => (a, 1, 0)
  | fuel + 1, a, b =>
    if b = 0 then (a, 1, 0)
    else
      let r := egcdAux fuel b (a.fmod b)
      (r.1, r.2.2, r.2.1 - a.fdiv b * r.2.2)

/-- Model of `egcd(a, b)`: returns `(g, x, y)` with `a*x + b*y = g = gcd(a, b)`. -/
def egcd (a b : Int) : Int × Int × Int := egcdAux (b.natAbs + 1) a b

/-- Model of `modinv(a, m)`: raises (`NoInverseExists`) when the gcd computed
by `egcd` is not 1, otherwise returns `x % m` (Python `%`, i.e. `fmod`). -/
def modinv (a m : Int) : Except RsaError Int :=
  let r := egcd a m
  if r.1 ≠ 1 then .error .NoInverseExists else .ok (r.2.1.fmod m)

/-- Output relation of `choose_random_coprime(phi, bits)`.
With `bits = None` the draw is `e = secrets.randbelow(phi - 3) + 3`, accepted
when `gcd(e, phi) = 1`; with `bits` given the draw is
`e = secrets.randbits(bits) | 1`, accepted when `2 <= e < phi` and
`gcd(e, phi) = 1`. -/
def ChooseRandomCoprimeOut (phi : Nat) (bits : Option Nat) (e : Nat) : Prop :=
  match bits with
  | none => ∃ r : Nat, r < phi - 3 ∧ e = r + 3 ∧ Nat.gcd e phi = 1
  | some b => ∃ r : Nat, r < 2 ^ b ∧ e = r ||| 1 ∧ 2 ≤ e ∧ e < phi ∧ Nat.gcd e phi = 1

/-- Output relation for the public exponent chosen by `generate_keypair`:
either the random mode, or the fixed `e = 65537` (falling back to the random
chooser when `gcd(65537, phi) != 1`). -/
def ExponentSelected (phi : Nat) (useRandomE : Bool) (eBits : Option Nat) (e : Nat) : Prop :=
  if useRandomE then ChooseRandomCoprimeOut phi eBits e
  else
    (e = 65537 ∧ Nat.gcd 65537 phi = 1) ∨
    (Nat.gcd 65537 phi ≠ 1 ∧ ChooseRandomCoprimeOut phi eBits e)

/-- The dict `{p, q, n, phi, e, d}` returned by `generate_keypair`. -/
structure KeyPair where
  p : Nat
  q : Nat
  n : Nat
  phi : Nat
  e : Nat
  d : Nat
deriving DecidableEq, Repr

/-- Output relation of `generate_keypair(prime_bits, use_random_e, e_bits)`:
everything the code establishes about a returned dict.  `p` and `q` come from
`generate_prime` (with the `while q == p` redraw guaranteeing `q != p`),
`n` and `phi` are computed, `e` is selected, and `d = modinv(e, phi)`. -/
def GeneratedKeypair (primeBits : Nat) (useRandomE : Bool) (eBits : Option Nat)
    (kp : KeyPair) : Prop :=
  16 ≤ primeBits ∧
  GeneratePrimeOutput primeBits kp.p ∧
  GeneratePrimeOutput primeBits kp.q ∧
  kp.q ≠ kp.p ∧
  kp.n = kp.p * kp.q ∧
  kp.phi = (kp.p - 1) * (kp.q - 1) ∧
  ExponentSelected kp.phi useRandomE eBits kp.e ∧
  modinv (kp.e : Int) (kp.phi : Int) = .ok (kp.d : Int)

/-- The deterministic guard at the top of `generate_keypair`:
`prime_bits < 16` raises (`InvalidParameter`) before anything is drawn. -/
def generateKeypairGuard (primeBits : Nat) : Except RsaError Unit :=
  if primeBits < 16 then .error .InvalidParameter else .ok ()

/-- Model of `encrypt_int(m, e, n)`: requires `0 < m < n` (else
`InvalidParameter`), returns `pow(m, e, n)`. -/
def encrypt_int (m e n : Nat) : Except RsaError Nat :=
  if 0 < m ∧ m < n then .ok (powMod m e n) else .error .InvalidParameter

/-- Model of `decrypt_int(c, d, n) = pow(c, d, n)`. -/
def decrypt_int (c d n : Nat) : Nat := powMod c d n

/-- Model of `bytes_to_int`: big-endian unsigned interpretation
(`int.from_bytes(b, "big")`).  Bytes are naturals below 256. -/
def bytes_to_int (b : List Nat) : Nat := b.foldl (fun acc x => acc * 256 + x) 0

/-- Big-endian encoding of `i` on exactly `len` bytes
(`i.to_bytes(len, "big")`, for `i < 256 ^ len`). -/
def natToBytesBE : Nat → Nat → List Nat
  | 0, _ => []
  | len + 1, i => natToBytesBE len (i / 256) ++ [i % 256]

/-- Model of `int_to_bytes(i)`: minimal big-endian encoding, on
`(i.bit_length() + 7) // 8` bytes.  In particular `int_to_bytes 0 = []`. -/
def int_to_bytes (i : Nat) : List Nat := natToBytesBE ((bitLen i + 7) / 8) i

/-- UTF-8 encoding of one code point (the standard 1-4 byte scheme used by
Python's `str.encode("utf-8")`). -/
def utf8Char (c : Nat) : List Nat :=
  if c < 0x80 then [c]
  else if c < 0x800 then [0xC0 + c / 64, 0x80 + c % 64]
  else if c < 0x10000 then [0xE0 + c / 4096, 0x80 + c / 64 % 64, 0x80 + c % 64]
  else [0xF0 + c / 262144, 0x80 + c / 4096 % 64, 0x80 + c / 64 % 64, 0x80 + c % 64]

/-- Model of `message.encode("utf-8")` as a byte list. -/
def utf8 (s : String) : List Nat := (s.data.map (fun c => utf8Char c.toNat)).flatten

/-- Is `b` a UTF-8 continuation byte `0b10xxxxxx`. -/
def isCont (b : Nat) : Bool := 0x80 ≤ b && b < 0xC0

/-- Decode one UTF-8 sequence whose first byte is `b` and whose following
bytes start the list `bs`: returns the code point and the unconsumed bytes,
or `none` for a malformed sequence (stray continuation byte, truncation,
overlong form, surrogate, or value above `0x10FFFF`). -/
def utf8DecodeStep (b : Nat) (bs : List Nat) : Option (Nat × List Nat) :=
  if b < 0x80 then some (b, bs)
  else if b < 0xC2 then none
  else if b < 0xE0 then
    match bs with
    | b1 :: bs1 =>
      if isCont b1 then some ((b - 0xC0) * 64 + (b1 - 0x80), bs1) else none
    | _ => none
  else if b < 0xF0 then
    match bs with
    | b1 :: b2 :: bs2 =>
      let v := (b - 0xE0) * 4096 + (b1 - 0x80) * 64 + (b2 - 0x80)
      if isCont b1 && isCont b2 && decide (0x800 ≤ v) &&
          !(decide (0xD800 ≤ v) && decide (v < 0xE000)) then
        some (v, bs2)
      else none
    | _ => none
  else if b < 0xF5 then
    match bs with
    | b1 :: b2 :: b3 :: bs3 =>
      let v := (b - 0xF0) * 262144 + (b1 - 0x80) * 4096 + (b2 - 0x80) * 64 + (b3 - 0x80)
      if isCont b1 && isCont b2 && isCont b3 && decide (0x10000 ≤ v) &&
          decide (v < 0x110000) then
        some (v, bs3)
      else none
    | _ => none
  else none

/-- Sequence-by-sequence decoding loop; the fuel (one unit per decoded
sequence) is a structural-recursion device, and `utf8Decode` passes the
byte count, which always suffices since each step consumes at least one
byte. -/
def utf8DecodeAux : Nat → List Nat → Option (List Char)
  | _, [] => some []
  | 0, _ :: _ => none
  | fuel + 1, b :: bs =>
    match utf8DecodeStep b bs with
    | none => none
    | some (v, rest) => (utf8DecodeAux fuel rest).map (fun cs => Char.ofNat v :: cs)

/-- Strict UTF-8 decoder, the model of `bytes.decode("utf-8")` (Python
raises `UnicodeDecodeError` on invalid bytes; here: `none`). -/
def utf8Decode (l : List Nat) : Option (List Char) := utf8DecodeAux l.length l

/-- Model of `encrypt_message(message, e, n)`: encode to an integer, raise
(`MessageTooLarge`) when `m >= n`, otherwise `encrypt_int(m, e, n)`. -/
def encrypt_message (message : String) (e n : Nat) : Except RsaError Nat :=
  let m := bytes_to_int (utf8 message)
  if m ≥ n then .error .MessageTooLarge else encrypt_int m e n

/-- Model of `decrypt_message(cipher_int, d, n)`: decrypt, re-encode the
integer as bytes, UTF-8-decode (`DecodingError` on invalid bytes). -/
def decrypt_message (cipherInt d n : Nat) : Except RsaError String :=
  match utf8Decode (int_to_bytes (decrypt_int cipherInt d n)) with
  | some cs => .ok (String.mk cs)
  | none => .error .DecodingError

/-! ### Primality oracle: no false negatives on true primes -/



theorem powMod_val (n : Nat) [NeZero n] (a k : Nat) : powMod a k n = ((a : ZMod n) ^ k).val := by
  rw [powMod_eq, ← Nat.cast_pow, ZMod.val_natCast]

theorem powMod_val_zmod (n : Nat) [NeZero n] (γ : ZMod n) (k : Nat) :
    powMod γ.val k n = (γ ^ k).val := by
  rw [powMod_val n γ.val k, ZMod.natCast_rightInverse γ]

theorem zmod_val_neg_one (n : Nat) (hn : 2 ≤ n) : (-1 : ZMod n).val = n - 1 := by
  haveI : NeZero n := ⟨by omega⟩
  have h : ((n - 1 : Nat) : ZMod n) = -1 := by
    have h1 : ((n - 1 : Nat) : ZMod n) = (n : ZMod n) - 1 := by
      rw [Nat.cast_sub (by omega : 1 ≤ n), Nat.cast_one]
    rw [h1, ZMod.natCast_self]
    ring
  rw [← h, ZMod.val_cast_of_lt (by omega)]

theorem mrSquares_true (n : Nat) [NeZero n] :
    ∀ (c : Nat) (γ : ZMod n) (j : Nat), 1 ≤ j → j ≤ c → (γ ^ 2 ^ j).val = n - 1 →
    mrSquares n γ.val c = true := by
  intro c
  induction c with
  | zero => intro γ j h1 h2 _; omega
  | succ c ih =>
    intro γ j h1 h2 hval
    show (if powMod γ.val 2 n = n - 1 then true else mrSquares n (powMod γ.val 2 n) c) = true
    rw [powMod_val_zmod n γ 2]
    by_cases hx : (γ ^ 2).val = n - 1
    · rw [if_pos hx]
    · rw [if_neg hx]
      have hj2 : 2 ≤ j := by
        rcases Nat.lt_or_ge j 2 with h | h
        · interval_cases j
          · exact absurd (by simpa using hval) hx
        · exact h
      apply ih (γ ^ 2) (j - 1) (by omega) (by omega)
      rw [← pow_mul]
      have : 2 * 2 ^ (j - 1) = 2 ^ j := by
        rw [← pow_succ']
        congr 1
        omega
      rw [this]
      exact hval

theorem mrRound_prime (n d s : Nat) (hp : Nat.Prime n) (h31 : 31 ≤ n)
    (hds : n - 1 = 2 ^ s * d) (r : Nat) (hr : r + 4 ≤ n) :
    mrRound n d s r = true := by
  haveI hfact : Fact (Nat.Prime n) := ⟨hp⟩
  haveI : NeZero n := ⟨hp.ne_zero⟩
  haveI : Fact (1 < n) := ⟨hp.one_lt⟩
  set a := r + 2 with hadef
  have ha2 : 2 ≤ a := by omega
  have han : a < n := by omega
  set α : ZMod n := (a : ZMod n) with hαdef
  have hαval : α.val = a := by
    rw [hαdef, ZMod.val_natCast]
    exact Nat.mod_eq_of_lt han
  have hα0 : α ≠ 0 := by
    intro h
    rw [h, ZMod.val_zero] at hαval
    omega
  have hfermat : α ^ (n - 1) = 1 := ZMod.pow_card_sub_one_eq_one hα0
  set β : ZMod n := α ^ d with hβdef
  have hβs : β ^ 2 ^ s = 1 := by
    rw [hβdef, ← pow_mul, mul_comm d (2 ^ s), ← hds]
    exact hfermat
  have hx0 : powMod a d n = β.val := by
    rw [powMod_val n a d, hβdef]
  show (if powMod a d n = 1 ∨ powMod a d n = n - 1 then true
    else mrSquares n (powMod a d n) (s - 1)) = true
  by_cases hβ1 : β = 1
  · rw [hx0, hβ1, ZMod.val_one]
    simp
  · have hex : ∃ j, β ^ 2 ^ j = 1 := ⟨s, hβs⟩
    set j₀ := Nat.find hex with hj₀def
    have hj₀ : β ^ 2 ^ j₀ = 1 := Nat.find_spec hex
    have hj₀min : ∀ j, j < j₀ → β ^ 2 ^ j ≠ 1 := fun j hj => Nat.find_min hex hj
    have hj₀pos : 1 ≤ j₀ := by
      rcases Nat.eq_zero_or_pos j₀ with h | h
      · exfalso
        rw [h, pow_zero, pow_one] at hj₀
        exact hβ1 hj₀
      · exact h
    have hj₀le : j₀ ≤ s := Nat.find_min' hex hβs
    set γ : ZMod n := β ^ 2 ^ (j₀ - 1) with hγdef
    have hγsq : γ * γ = 1 := by
      rw [hγdef, ← pow_add]
      have : 2 ^ (j₀ - 1) + 2 ^ (j₀ - 1) = 2 ^ j₀ := by
        have h3 : j₀ = j₀ - 1 + 1 := by omega
        conv_rhs => rw [h3]
        rw [pow_succ]
        ring
      rw [this]
      exact hj₀
    have hγne : γ ≠ 1 := hj₀min (j₀ - 1) (by omega)
    have hγ : γ = -1 := by
      rcases mul_self_eq_one_iff.mp hγsq with h | h
      · exact absurd h hγne
      · exact h
    have hγval : γ.val = n - 1 := by
      rw [hγ, zmod_val_neg_one n (by omega)]
    by_cases hj₀1 : j₀ = 1
    · have hβval : β.val = n - 1 := by
        have : γ = β := by
          rw [hγdef, hj₀1]
          simp
        rw [← this, hγval]
      rw [hx0, hβval]
      simp
    · have hj₀2 : 2 ≤ j₀ := by omega
      have hxne1 : β.val ≠ 1 := by
        intro h
        have : β = 1 := by
          apply ZMod.val_injective
          rw [h, ZMod.val_one]
        exact hβ1 this
      have hxnen1 : β.val ≠ n - 1 := by
        intro h
        have hβneg : β = -1 := by
          apply ZMod.val_injective
          rw [h, zmod_val_neg_one n (by omega)]
        have : β ^ 2 ^ 1 = 1 := by
          rw [hβneg]
          norm_num
        exact hj₀min 1 (by omega) this
      rw [hx0, if_neg (by tauto)]
      apply mrSquares_true n (s - 1) β (j₀ - 1) (by omega) (by omega)
      rw [← hγdef, hγval]


theorem smallPrimeCheck_none (n : Nat) : ∀ l : List Nat, (∀ p ∈ l, n % p ≠ 0) →
    smallPrimeCheck l n = none := by
  intro l
  induction l with
  | nil => intro _; rfl
  | cons p ps ih =>
    intro h
    have hp : n % p ≠ 0 := h p (List.mem_cons_self p ps)
    simp only [smallPrimeCheck, hp, ite_false]
    exact ih (fun q hq => h q (List.mem_cons_of_mem p hq))

theorem prime_no_small_divisor (n : Nat) (hp : Nat.Prime n) (h31 : 31 ≤ n) :
    ∀ p ∈ smallPrimes, n % p ≠ 0 := by
  intro p hpmem h0
  have hbound : 2 ≤ p ∧ p ≤ 29 := by
    fin_cases hpmem <;> omega
  have hdvd : p ∣ n := Nat.dvd_of_mod_eq_zero h0
  rcases (Nat.Prime.eq_one_or_self_of_dvd hp p hdvd) with h | h <;> omega

theorem mrRounds_all (n d s : Nat) : ∀ rnd : List Nat,
    (∀ r ∈ rnd, mrRound n d s r = true) → mrRounds n d s rnd = true := by
  intro rnd
  induction rnd with
  | nil => intro _; rfl
  | cons r rs ih =>
    intro h
    simp only [mrRounds, Bool.and_eq_true]
    exact ⟨h r (List.mem_cons_self r rs), ih (fun q hq => h q (List.mem_cons_of_mem r hq))⟩

/-- A genuinely prime number passes `is_probable_prime` for every base list
whose bases lie in the sampled range. -/
theorem millerRabin_prime (n : Nat) (hp : Nat.Prime n) (rnd : List Nat)
    (hr : ∀ r ∈ rnd, r + 4 ≤ n) : is_probable_prime n rnd = true := by
  by_cases h31 : n < 31
  · have h2 := hp.two_le
    interval_cases n <;> first | rfl | (exact absurd hp (by norm_num))
  · push_neg at h31
    have hfilter := smallPrimeCheck_none n smallPrimes (prime_no_small_divisor n hp h31)
    unfold is_probable_prime
    rw [if_neg (by omega), hfilter]
    have hsplit := decompose_spec (n - 1) (by omega)
    apply mrRounds_all
    intro r hrmem
    exact mrRound_prime n (decompose (n - 1)).1 (decompose (n - 1)).2 hp h31 hsplit.1 r (hr r hrmem)


/-! ### Extended Euclid and modular inverse: correctness -/

theorem int_gcd_fmod (a b : Int) (hb : 0 < b) : Int.gcd b (a.fmod b) = Int.gcd a b := by
  rw [Int.fmod_eq_emod a hb.le]
  apply Nat.dvd_antisymm
  · rw [← Int.natCast_dvd_natCast]
    apply Int.dvd_gcd
    · calc (↑(Int.gcd b (a % b)) : Int) ∣ b * (a / b) + a % b :=
        dvd_add (Dvd.dvd.mul_right Int.gcd_dvd_left _) Int.gcd_dvd_right
      _ = a := Int.ediv_add_emod a b
    · exact Int.gcd_dvd_left
  · rw [← Int.natCast_dvd_natCast]
    apply Int.dvd_gcd
    · exact Int.gcd_dvd_right
    · have : (a % b : Int) = a - b * (a / b) := by
        have := Int.ediv_add_emod a b
        omega
      rw [this]
      exact dvd_sub Int.gcd_dvd_left (Dvd.dvd.mul_right Int.gcd_dvd_right _)

theorem egcdAux_spec : ∀ fuel (a b : Int), 0 ≤ b → b.natAbs < fuel → (b = 0 → 0 ≤ a) →
    a * (egcdAux fuel a b).2.1 + b * (egcdAux fuel a b).2.2 = (egcdAux fuel a b).1 ∧
    (egcdAux fuel a b).1 = Int.gcd a b := by
  intro fuel
  induction fuel with
  | zero => intro a b _ h _; omega
  | succ fuel ih =>
    intro a b hb hfuel h0
    by_cases hb0 : b = 0
    · subst hb0
      constructor
      · simp [egcdAux]
      · simp [egcdAux, Int.gcd_zero_right, Int.natAbs_of_nonneg (h0 rfl)]
    · have hbpos : 0 < b := lt_of_le_of_ne hb (Ne.symm hb0)
      have hm1 : (0 : Int) ≤ a.fmod b := by
        rw [Int.fmod_eq_emod a hb]
        exact Int.emod_nonneg a hb0
      have hm2 : a.fmod b < b := Int.fmod_lt_of_pos a hbpos
      have hm3 : (a.fmod b).natAbs < fuel := by omega
      have hrec := ih b (a.fmod b) hm1 hm3 (fun _ => hb)
      have hfd : a.fmod b + b * a.fdiv b = a := Int.fmod_add_fdiv a b
      simp only [egcdAux, if_neg hb0]
      constructor
      · have h1 := hrec.1
        set x1 := (egcdAux fuel b (a.fmod b)).2.1
        set y1 := (egcdAux fuel b (a.fmod b)).2.2
        linear_combination h1 - y1 * hfd
      · rw [hrec.2]
        exact congrArg _ (int_gcd_fmod a b hbpos)

theorem egcd_spec (a b : Int) (hb : 0 < b) :
    a * (egcd a b).2.1 + b * (egcd a b).2.2 = (egcd a b).1 ∧ (egcd a b).1 = Int.gcd a b :=
  egcdAux_spec (b.natAbs + 1) a b hb.le (by omega) (fun h => absurd h (ne_of_gt hb))

theorem modinv_error_iff (a m : Int) (hm : 0 < m) :
    modinv a m = .error .NoInverseExists ↔ Int.gcd a m ≠ 1 := by
  have hg := (egcd_spec a m hm).2
  unfold modinv
  by_cases h1 : (egcd a m).1 = 1
  · simp only [h1, ne_eq, not_true_eq_false, if_false, ite_false]
    constructor
    · intro h; cases h
    · intro hgcd
      rw [h1] at hg
      omega
  · simp only [ne_eq, h1, not_false_eq_true, if_true, ite_true]
    constructor
    · intro _
      intro hgcd
      rw [hgcd] at hg
      simp at hg
      exact h1 hg
    · intro _
      trivial

theorem modinv_ok (a m d : Int) (hm : 0 < m) (h : modinv a m = .ok d) :
    Int.gcd a m = 1 ∧ 0 ≤ d ∧ d < m ∧ a * d % m = 1 % m := by
  have hspec := egcd_spec a m hm
  unfold modinv at h
  by_cases h1 : (egcd a m).1 = 1
  · simp only [h1, ne_eq, not_true_eq_false, if_false, ite_false, Except.ok.injEq] at h
    have hgcd : Int.gcd a m = 1 := by
      have := hspec.2
      rw [h1] at this
      omega
    refine ⟨hgcd, ?_, ?_, ?_⟩
    · rw [← h, Int.fmod_eq_emod _ hm.le]
      exact Int.emod_nonneg _ (ne_of_gt hm)
    · rw [← h]
      exact Int.fmod_lt_of_pos _ hm
    · set x := (egcd a m).2.1
      set y := (egcd a m).2.2
      have hbez : a * x + m * y = 1 := by
        have := hspec.1
        rw [h1] at this
        exact this
      have hax : a * x = 1 - m * y := by omega
      rw [← h, Int.fmod_eq_emod _ hm.le]
      rw [Int.mul_emod a (x % m) m, Int.emod_emod_of_dvd x (dvd_refl m), ← Int.mul_emod]
      rw [hax, Int.sub_emod, Int.mul_emod_right, sub_zero, Int.emod_emod_of_dvd 1 (dvd_refl m)]
  · simp only [ne_eq, h1, not_false_eq_true, if_true, ite_true] at h
    cases h

/-! ### Transcoder: byte/integer conversions -/

theorem natToBytesBE_length : ∀ len i, (natToBytesBE len i).length = len := by
  intro len
  induction len with
  | zero => intro i; rfl
  | succ len ih =>
    intro i
    simp [natToBytesBE, ih]

theorem bytes_to_int_append_single (l : List Nat) (x : Nat) :
    bytes_to_int (l ++ [x]) = bytes_to_int l * 256 + x := by
  unfold bytes_to_int
  rw [List.foldl_append]
  rfl

theorem bytes_to_int_natToBytesBE : ∀ len i, i < 256 ^ len →
    bytes_to_int (natToBytesBE len i) = i := by
  intro len
  induction len with
  | zero =>
    intro i hi
    interval_cases i
    rfl
  | succ len ih =>
    intro i hi
    have hdiv : i / 256 < 256 ^ len := by
      rw [pow_succ] at hi
      omega
    simp only [natToBytesBE, bytes_to_int_append_single, ih (i / 256) hdiv]
    omega

theorem bytes_foldl_acc : ∀ (l : List Nat) (acc : Nat),
    List.foldl (fun acc x => acc * 256 + x) acc l = acc * 256 ^ l.length + bytes_to_int l := by
  intro l
  induction l with
  | nil => intro acc; simp [bytes_to_int]
  | cons x l ih =>
    intro acc
    simp only [List.foldl_cons, List.length_cons, bytes_to_int]
    rw [ih (acc * 256 + x), ih (0 * 256 + x)]
    ring

theorem bytes_to_int_cons (x : Nat) (l : List Nat) :
    bytes_to_int (x :: l) = x * 256 ^ l.length + bytes_to_int l := by
  unfold bytes_to_int
  rw [List.foldl_cons]
  simpa using bytes_foldl_acc l x

theorem bytes_to_int_lt : ∀ l : List Nat, (∀ x ∈ l, x < 256) → bytes_to_int l < 256 ^ l.length := by
  intro l
  induction l with
  | nil => intro _; simp [bytes_to_int]
  | cons x l ih =>
    intro hb
    have hx : x < 256 := hb x (List.mem_cons_self x l)
    have hl := ih (fun y hy => hb y (List.mem_cons_of_mem x hy))
    rw [bytes_to_int_cons, List.length_cons, pow_succ, mul_comm (256 ^ l.length) 256]
    have hxl : x * 256 ^ l.length ≤ 255 * 256 ^ l.length :=
      Nat.mul_le_mul_right _ (by omega)
    omega

theorem natToBytesBE_bytes_to_int : ∀ l : List Nat, (∀ x ∈ l, x < 256) →
    natToBytesBE l.length (bytes_to_int l) = l := by
  intro l
  induction l using List.reverseRecOn with
  | nil => intro _; rfl
  | append_singleton xs x ih =>
    intro hb
    have hx : x < 256 := hb x (by simp)
    have hxs := ih (fun y hy => hb y (by simp [hy]))
    rw [bytes_to_int_append_single]
    have hlen : (xs ++ [x]).length = xs.length + 1 := by simp
    rw [hlen]
    simp only [natToBytesBE]
    have h1 : (bytes_to_int xs * 256 + x) / 256 = bytes_to_int xs := by omega
    have h2 : (bytes_to_int xs * 256 + x) % 256 = x := by omega
    rw [h1, h2, hxs]

theorem int_to_bytes_length (i : Nat) : (int_to_bytes i).length = (bitLen i + 7) / 8 :=
  natToBytesBE_length _ i

theorem pow256_eq (k : Nat) : 256 ^ k = 2 ^ (8 * k) := by
  rw [pow_mul]
  norm_num

theorem bytes_to_int_int_to_bytes (i : Nat) : bytes_to_int (int_to_bytes i) = i := by
  apply bytes_to_int_natToBytesBE
  rw [pow256_eq]
  calc i < 2 ^ bitLen i := bitLen_lt i
    _ ≤ 2 ^ (8 * ((bitLen i + 7) / 8)) := Nat.pow_le_pow_right (by omega) (by omega)

theorem int_to_bytes_bytes_to_int (b0 : Nat) (bs : List Nat) (h0 : b0 ≠ 0)
    (hb : ∀ x ∈ b0 :: bs, x < 256) :
    int_to_bytes (bytes_to_int (b0 :: bs)) = b0 :: bs := by
  set m := bytes_to_int (b0 :: bs) with hm
  have hup : m < 256 ^ (bs.length + 1) := by
    have := bytes_to_int_lt (b0 :: bs) hb
    simpa using this
  have hlow : 256 ^ bs.length ≤ m := by
    rw [hm, bytes_to_int_cons]
    have : 1 * 256 ^ bs.length ≤ b0 * 256 ^ bs.length :=
      Nat.mul_le_mul_right _ (by omega)
    omega
  have hbl_up : bitLen m ≤ 8 * (bs.length + 1) := by
    apply bitLen_le
    rw [← pow256_eq]
    exact hup
  have hbl_low : 8 * bs.length < bitLen m := by
    apply bitLen_gt
    rw [← pow256_eq]
    exact hlow
  have hlen : (bitLen m + 7) / 8 = bs.length + 1 := by omega
  unfold int_to_bytes
  rw [hlen]
  have := natToBytesBE_bytes_to_int (b0 :: bs) hb
  simpa using this

theorem int_to_bytes_leading_zero (bs : List Nat) (hb : ∀ x ∈ bs, x < 256) :
    int_to_bytes (bytes_to_int (0 :: bs)) ≠ 0 :: bs := by
  intro hcontra
  have hm : bytes_to_int (0 :: bs) = bytes_to_int bs := by
    rw [bytes_to_int_cons]
    simp
  have hlt : bytes_to_int (0 :: bs) < 256 ^ bs.length := by
    rw [hm]
    exact bytes_to_int_lt bs hb
  have hbl : bitLen (bytes_to_int (0 :: bs)) ≤ 8 * bs.length := by
    apply bitLen_le
    rw [← pow256_eq]
    exact hlt
  have hlen := congrArg List.length hcontra
  rw [int_to_bytes_length] at hlen
  simp only [List.length_cons] at hlen
  omega

/-! ### Transcoder: the UTF-8 codec round-trips -/

theorem char_toNat_eq (c : Char) : c.toNat = c.val.toNat := rfl

theorem char_toNat_lt (c : Char) : c.toNat < 0x110000 := by
  have h := c.valid
  rw [char_toNat_eq]
  rcases h with h | h
  · exact Nat.lt_trans h (by norm_num)
  · exact h.2

theorem char_not_surrogate (c : Char) : ¬ (0xD800 ≤ c.toNat ∧ c.toNat < 0xE000) := by
  have h := c.valid
  rw [char_toNat_eq]
  rcases h with h | h
  · omega
  · rcases h with ⟨h1, _⟩
    omega

theorem utf8Char_ne_nil (t : Nat) : utf8Char t ≠ [] := by
  unfold utf8Char
  split_ifs <;> simp

theorem utf8Char_bytes_lt (t : Nat) (ht : t < 0x110000) : ∀ x ∈ utf8Char t, x < 256 := by
  unfold utf8Char
  split_ifs with h1 h2 h3 <;> intro x hx <;> simp at hx <;> omega

theorem utf8_bytes_lt (s : String) : ∀ x ∈ utf8 s, x < 256 := by
  intro x hx
  unfold utf8 at hx
  rw [List.mem_flatten] at hx
  obtain ⟨l, hl, hxl⟩ := hx
  rw [List.mem_map] at hl
  obtain ⟨c, _, hc⟩ := hl
  subst hc
  exact utf8Char_bytes_lt c.toNat (char_toNat_lt c) x hxl

theorem utf8DecodeStep_encode (c : Char) (rest : List Nat) :
    ∃ b bs, utf8Char c.toNat = b :: bs ∧ utf8DecodeStep b (bs ++ rest) = some (c.toNat, rest) := by
  have hv := char_toNat_lt c
  have hs := char_not_surrogate c
  set t := c.toNat with ht
  by_cases h1 : t < 0x80
  · refine ⟨t, [], by rw [utf8Char, if_pos h1], ?_⟩
    rw [List.nil_append]
    unfold utf8DecodeStep
    rw [if_pos h1]
  · by_cases h2 : t < 0x800
    · refine ⟨0xC0 + t / 64, [0x80 + t % 64], by rw [utf8Char, if_neg h1, if_pos h2], ?_⟩
      rw [List.cons_append, List.nil_append]
      have c1 : ¬ (0xC0 + t / 64 < 0x80) := by omega
      have c2 : ¬ (0xC0 + t / 64 < 0xC2) := by omega
      have c3 : 0xC0 + t / 64 < 0xE0 := by omega
      have c4 : isCont (0x80 + t % 64) = true := by
        simp only [isCont, Bool.and_eq_true, decide_eq_true_eq]
        omega
      unfold utf8DecodeStep
      rw [if_neg c1, if_neg c2, if_pos c3]
      simp only [c4, if_true]
      have harg : (0xC0 + t / 64 - 0xC0) * 64 + (0x80 + t % 64 - 0x80) = t := by omega
      rw [harg]
    · by_cases h3 : t < 0x10000
      · refine ⟨0xE0 + t / 4096, [0x80 + t / 64 % 64, 0x80 + t % 64],
          by rw [utf8Char, if_neg h1, if_neg h2, if_pos h3], ?_⟩
        rw [List.cons_append, List.cons_append, List.nil_append]
        have c1 : ¬ (0xE0 + t / 4096 < 0x80) := by omega
        have c2 : ¬ (0xE0 + t / 4096 < 0xC2) := by omega
        have c3 : ¬ (0xE0 + t / 4096 < 0xE0) := by omega
        have c4 : 0xE0 + t / 4096 < 0xF0 := by omega
        unfold utf8DecodeStep
        rw [if_neg c1, if_neg c2, if_neg c3, if_pos c4]
        have harg : (0xE0 + t / 4096 - 0xE0) * 4096 + (0x80 + t / 64 % 64 - 0x80) * 64 +
            (0x80 + t % 64 - 0x80) = t := by omega
        simp only [harg]
        have hcond : (isCont (0x80 + t / 64 % 64) && isCont (0x80 + t % 64) &&
            decide (0x800 ≤ t) && !(decide (0xD800 ≤ t) && decide (t < 0xE000))) = true := by
          simp only [isCont, Bool.and_eq_true, decide_eq_true_eq, Bool.not_eq_true',
            Bool.and_eq_false_iff, decide_eq_false_iff_not]
          omega
        rw [if_pos hcond]
      · refine ⟨0xF0 + t / 262144, [0x80 + t / 4096 % 64, 0x80 + t / 64 % 64, 0x80 + t % 64],
          by rw [utf8Char, if_neg h1, if_neg h2, if_neg h3], ?_⟩
        rw [List.cons_append, List.cons_append, List.cons_append, List.nil_append]
        have c1 : ¬ (0xF0 + t / 262144 < 0x80) := by omega
        have c2 : ¬ (0xF0 + t / 262144 < 0xC2) := by omega
        have c3 : ¬ (0xF0 + t / 262144 < 0xE0) := by omega
        have c4 : ¬ (0xF0 + t / 262144 < 0xF0) := by omega
        have c5 : 0xF0 + t / 262144 < 0xF5 := by omega
        unfold utf8DecodeStep
        rw [if_neg c1, if_neg c2, if_neg c3, if_neg c4, if_pos c5]
        have harg : (0xF0 + t / 262144 - 0xF0) * 262144 + (0x80 + t / 4096 % 64 - 0x80) * 4096 +
            (0x80 + t / 64 % 64 - 0x80) * 64 + (0x80 + t % 64 - 0x80) = t := by omega
        simp only [harg]
        have hcond : (isCont (0x80 + t / 4096 % 64) && isCont (0x80 + t / 64 % 64) &&
            isCont (0x80 + t % 64) && decide (0x10000 ≤ t) && decide (t < 0x110000)) = true := by
          simp only [isCont, Bool.and_eq_true, decide_eq_true_eq]
          omega
        rw [if_pos hcond]

theorem utf8DecodeAux_nil (fuel : Nat) : utf8DecodeAux fuel [] = some [] := by
  cases fuel <;> rfl

theorem utf8DecodeAux_encode :
    ∀ (cs : List Char) (fuel : Nat),
    ((cs.map (fun c => utf8Char c.toNat)).flatten).length ≤ fuel →
    utf8DecodeAux fuel ((cs.map (fun c => utf8Char c.toNat)).flatten) = some cs := by
  intro cs
  induction cs with
  | nil => intro fuel _; simp [utf8DecodeAux_nil]
  | cons c cs ih =>
    intro fuel hfuel
    simp only [List.map_cons, List.flatten_cons] at hfuel ⊢
    set rest := (cs.map (fun c => utf8Char c.toNat)).flatten with hrest
    obtain ⟨b, bs, henc, hstep'⟩ := utf8DecodeStep_encode c rest
    rw [henc]
    rw [henc] at hfuel
    simp only [List.cons_append, List.length_cons, List.length_append] at hfuel
    match fuel, hfuel with
    | fuel + 1, hfuel =>
      show utf8DecodeAux (fuel + 1) (b :: (bs ++ rest)) = some (c :: cs)
      rw [utf8DecodeAux, hstep']
      have hlen : rest.length ≤ fuel := by omega
      show Option.map (fun cs => Char.ofNat c.toNat :: cs) (utf8DecodeAux fuel rest) = some (c :: cs)
      rw [ih fuel hlen]
      simp [Char.ofNat_toNat]

/-- Decoding inverts encoding: `utf8Decode (utf8 s) = some s.data`. -/
theorem utf8Decode_utf8 (s : String) : utf8Decode (utf8 s) = some s.data := by
  unfold utf8Decode utf8
  exact utf8DecodeAux_encode s.data _ (Nat.le_refl _)

/-! ### RSA round-trip core and keypair consequences -/


theorem pow_modEq_self_of_prime (p t m k : Nat) (hp : Nat.Prime p)
    (hk : k = 1 + (p - 1) * t) : m ^ k ≡ m [MOD p] := by
  by_cases hpm : p ∣ m
  · have hm0 : m ≡ 0 [MOD p] := Nat.modEq_zero_iff_dvd.mpr hpm
    calc m ^ k ≡ 0 ^ k [MOD p] := hm0.pow k
      _ = 0 := by rw [zero_pow (by omega : k ≠ 0)]
      _ ≡ m [MOD p] := hm0.symm
  · have hcop : Nat.Coprime m p := ((Nat.Prime.coprime_iff_not_dvd hp).mpr hpm).symm
    have heuler : m ^ (p - 1) ≡ 1 [MOD p] := by
      have h := Nat.ModEq.pow_totient hcop
      rwa [Nat.totient_prime hp] at h
    calc m ^ k = m ^ 1 * (m ^ (p - 1)) ^ t := by rw [← pow_mul, ← pow_add, hk]
      _ ≡ m ^ 1 * 1 ^ t [MOD p] := (heuler.pow t).mul_left _
      _ = m := by simp

/-- Core RSA identity: for distinct primes `p`, `q` and `e*d = 1 mod (p-1)(q-1)`,
exponentiation by `e*d` fixes every residue below `p*q`. -/
theorem rsa_correct (p q e d m : Nat) (hp : Nat.Prime p) (hq : Nat.Prime q) (hpq : p ≠ q)
    (hed : (e * d) % ((p - 1) * (q - 1)) = 1) (hm : m < p * q) :
    m ^ (e * d) % (p * q) = m := by
  set phi := (p - 1) * (q - 1) with hphi
  have hp2 := hp.two_le
  have hq2 := hq.two_le
  set k := e * d / phi with hk
  have hed1 : e * d = 1 + phi * k := by
    have h := Nat.div_add_mod (e * d) phi
    rw [← hk] at h
    omega
  have hkp : e * d = 1 + (p - 1) * ((q - 1) * k) := by
    calc e * d = 1 + (p - 1) * (q - 1) * k := hed1
      _ = 1 + (p - 1) * ((q - 1) * k) := by ring
  have hkq : e * d = 1 + (q - 1) * ((p - 1) * k) := by
    calc e * d = 1 + (p - 1) * (q - 1) * k := hed1
      _ = 1 + (q - 1) * ((p - 1) * k) := by ring
  have h1 := pow_modEq_self_of_prime p ((q - 1) * k) m (e * d) hp hkp
  have h2 := pow_modEq_self_of_prime q ((p - 1) * k) m (e * d) hq hkq
  have hcop : Nat.Coprime p q := (Nat.coprime_primes hp hq).mpr hpq
  have hmod : m ^ (e * d) ≡ m [MOD p * q] :=
    (Nat.modEq_and_modEq_iff_modEq_mul hcop).mp ⟨h1, h2⟩
  calc m ^ (e * d) % (p * q) = m % (p * q) := hmod
    _ = m := Nat.mod_eq_of_lt hm

theorem decrypt_int_encrypt (m e d n : Nat) (h : m ^ (e * d) % n = m) :
    decrypt_int (powMod m e n) d n = m := by
  unfold decrypt_int
  rw [powMod_eq, powMod_eq, ← Nat.pow_mod, ← pow_mul]
  exact h

theorem generatePrime_lower (bits p : Nat) (h : GeneratePrimeOutput bits p) :
    2 ^ (bits - 1) ≤ p := by
  obtain ⟨r, _, hpeq, _⟩ := h
  apply Nat.testBit_implies_ge
  rw [hpeq]
  rw [Nat.testBit_or, Nat.testBit_or, Nat.testBit_two_pow_self]
  simp

theorem chooseRandomCoprime_bounds (phi : Nat) (eb : Option Nat) (e : Nat)
    (h : ChooseRandomCoprimeOut phi eb e) : 2 ≤ e ∧ e < phi ∧ Nat.gcd e phi = 1 := by
  cases eb with
  | none =>
    obtain ⟨r, hr, he, hg⟩ := h
    subst he
    exact ⟨by omega, by omega, hg⟩
  | some b =>
    obtain ⟨r, _, _, h2, hlt, hg⟩ := h
    exact ⟨h2, hlt, hg⟩




theorem exponentSelected_bounds (phi : Nat) (ur : Bool) (eb : Option Nat) (e : Nat)
    (hsel : ExponentSelected phi ur eb e) (hphi : 65538 ≤ phi) :
    2 ≤ e ∧ e < phi ∧ Nat.gcd e phi = 1 := by
  unfold ExponentSelected at hsel
  cases ur with
  | true =>
    rw [if_pos rfl] at hsel
    exact chooseRandomCoprime_bounds phi eb e hsel
  | false =>
    rw [if_neg (by decide)] at hsel
    rcases hsel with ⟨he, hg⟩ | ⟨_, hc⟩
    · subst he
      exact ⟨by omega, by omega, hg⟩
    · exact chooseRandomCoprime_bounds phi eb e hc

theorem generatedKeypair_phi_lower (pb : Nat) (ur : Bool) (eb : Option Nat) (kp : KeyPair)
    (h : GeneratedKeypair pb ur eb kp) : 65538 ≤ kp.phi ∧ 2 ^ 15 ≤ kp.p ∧ 2 ^ 15 ≤ kp.q := by
  obtain ⟨h16, hp', hq', _, _, hphi, _, _⟩ := h
  have hpl : 2 ^ (pb - 1) ≤ kp.p := generatePrime_lower pb kp.p hp'
  have hql : 2 ^ (pb - 1) ≤ kp.q := generatePrime_lower pb kp.q hq'
  have hbits : 2 ^ 15 ≤ 2 ^ (pb - 1) := Nat.pow_le_pow_right (by omega) (by omega)
  have hp15 : 2 ^ 15 ≤ kp.p := le_trans hbits hpl
  have hq15 : 2 ^ 15 ≤ kp.q := le_trans hbits hql
  refine ⟨?_, hp15, hq15⟩
  have h1 : 32767 ≤ kp.p - 1 := by
    have : (2 : Nat) ^ 15 = 32768 := by norm_num
    omega
  have h2 : 32767 ≤ kp.q - 1 := by
    have : (2 : Nat) ^ 15 = 32768 := by norm_num
    omega
  have hm : 32767 * 32767 ≤ (kp.p - 1) * (kp.q - 1) := Nat.mul_le_mul h1 h2
  rw [hphi]
  omega

/-- Everything `generate_keypair` guarantees about a returned dict. -/
theorem generatedKeypair_invariants (pb : Nat) (ur : Bool) (eb : Option Nat) (kp : KeyPair)
    (h : GeneratedKeypair pb ur eb kp) :
    kp.n = kp.p * kp.q ∧ kp.phi = (kp.p - 1) * (kp.q - 1) ∧ kp.p ≠ kp.q ∧
    Nat.gcd kp.e kp.phi = 1 ∧ kp.e * kp.d % kp.phi = 1 ∧
    2 ≤ kp.e ∧ kp.e < kp.phi ∧ OraclePasses kp.p 40 ∧ OraclePasses kp.q 40 := by
  have hlow := generatedKeypair_phi_lower pb ur eb kp h
  obtain ⟨h16, hp', hq', hqp, hn, hphi, hsel, hdinv⟩ := h
  have hbounds := exponentSelected_bounds kp.phi ur eb kp.e hsel hlow.1
  have hphi0 : (0 : Int) < (kp.phi : Int) := by
    have := hlow.1
    omega
  have hmod := modinv_ok (kp.e : Int) (kp.phi : Int) (kp.d : Int) hphi0 hdinv
  have hed : kp.e * kp.d % kp.phi = 1 := by
    have h1 : ((kp.e : Int) * (kp.d : Int)) % (kp.phi : Int) = 1 % (kp.phi : Int) := hmod.2.2.2
    have h2 : ((kp.e * kp.d : Nat) : Int) % ((kp.phi : Nat) : Int) = ((1 : Nat) : Int) % (kp.phi : Int) := by
      push_cast
      exact h1
    rw [← Int.natCast_mod, ← Int.natCast_mod] at h2
    have h3 : (kp.e * kp.d) % kp.phi = 1 % kp.phi := Int.natCast_inj.mp h2
    have : 1 % kp.phi = 1 := Nat.mod_eq_of_lt (by omega)
    omega
  obtain ⟨rp, _, _, hop⟩ := hp'
  obtain ⟨rq, _, _, hoq⟩ := hq'
  exact ⟨hn, hphi, fun hpq => hqp hpq.symm, hbounds.2.2, hed, hbounds.1, hbounds.2.1, hop, hoq⟩


/-- A concrete keypair reachable by `generate_keypair(16, False)`:
`p = 32771` and `q = 65521` are genuine 16-bit primes. -/
def exampleKeypair : KeyPair :=
  { p := 32771, q := 65521, n := 2147188691, phi := 2147090400, e := 65537, d := 2104991873 }

/-- A concrete keypair also reachable by `generate_keypair(16, False)` in
which `p = 33169 = 41 * 809` is composite: `33169` passes every Miller-Rabin
round whose base is the strong liar `a = 44` (draw `r = 42`). -/
def liarKeypair : KeyPair :=
  { p := 33169, q := 65521, n := 2173266049, phi := 2173167360, e := 65537, d := 780439553 }

/-! ### Concrete keypairs as reachable outputs -/


theorem exampleKeypair_p_prime : Nat.Prime 32771 := by norm_num
theorem exampleKeypair_q_prime : Nat.Prime 65521 := by norm_num

/-- `exampleKeypair` is a possible output of `generate_keypair(16, False)`. -/
theorem exampleKeypair_generated : GeneratedKeypair 16 false none exampleKeypair := by
  refine ⟨by norm_num, ⟨32771, by norm_num, by decide, ?_⟩, ⟨65521, by norm_num, by decide, ?_⟩,
    by decide, by decide, by decide, ?_, ?_⟩
  · exact ⟨List.replicate 40 0, by simp,
      millerRabin_prime 32771 exampleKeypair_p_prime _ (by intro r hr; simp at hr; omega)⟩
  · exact ⟨List.replicate 40 0, by simp,
      millerRabin_prime 65521 exampleKeypair_q_prime _ (by intro r hr; simp at hr; omega)⟩
  · show ExponentSelected 2147090400 false none 65537
    unfold ExponentSelected
    rw [if_neg (by decide)]
    left
    exact ⟨rfl, by decide⟩
  · show modinv 65537 2147090400 = .ok 2104991873
    decide

/-- `liarKeypair` is also a possible output of `generate_keypair(16, False)`:
its `p = 33169 = 41 * 809` fools every Miller-Rabin round when each draw is
`r = 42` (base `a = 44`). -/
theorem liarKeypair_generated : GeneratedKeypair 16 false none liarKeypair := by
  refine ⟨by norm_num, ⟨33169, by norm_num, by decide, ?_⟩, ⟨65521, by norm_num, by decide, ?_⟩,
    by decide, by decide, by decide, ?_, ?_⟩
  · exact ⟨List.replicate 40 42, by simp, by decide⟩
  · exact ⟨List.replicate 40 0, by simp,
      millerRabin_prime 65521 exampleKeypair_q_prime _ (by intro r hr; simp at hr; omega)⟩
  · show ExponentSelected 2173167360 false none 65537
    unfold ExponentSelected
    rw [if_neg (by decide)]
    left
    exact ⟨rfl, by decide⟩
  · show modinv 65537 2173167360 = .ok 780439553
    decide


/-! ### The claims -/


/-- C1 (counterexample): the claim quantifies over every keypair returned by
`generate_keypair`, but the prime generator only certifies probable primality.
`liarKeypair` is a reachable output in which `p = 33169 = 41 * 809` passed
every Miller-Rabin round (all draws hit the strong liar base 44), and
decryption fails to invert encryption at `m = 2`. -/
theorem claim_C1_counterexample :
    GeneratedKeypair 16 false none liarKeypair ∧
    0 < 2 ∧ 2 < liarKeypair.n ∧
    encrypt_int 2 liarKeypair.e liarKeypair.n = .ok 988711920 ∧
    decrypt_int 988711920 liarKeypair.d liarKeypair.n = 486231343 ∧
    (486231343 : Nat) ≠ 2 :=
  ⟨liarKeypair_generated, by decide, by decide, by decide, by decide, by decide⟩

/-- C1 (amended): for every keypair returned by `generate_keypair` whose
factors `p` and `q` are genuinely prime, and every `0 < m < n`,
`decrypt_int (encrypt_int m e n) d n = m`. -/
theorem claim_C1_roundtrip (pb : Nat) (ur : Bool) (eb : Option Nat) (kp : KeyPair)
    (hkp : GeneratedKeypair pb ur eb kp) (hp : Nat.Prime kp.p) (hq : Nat.Prime kp.q)
    (m : Nat) (hm0 : 0 < m) (hmn : m < kp.n) :
    ∃ c, encrypt_int m kp.e kp.n = .ok c ∧ decrypt_int c kp.d kp.n = m := by
  obtain ⟨hn, hphi, hpq, _, hed, _⟩ := generatedKeypair_invariants pb ur eb kp hkp
  refine ⟨powMod m kp.e kp.n, ?_, ?_⟩
  · unfold encrypt_int
    rw [if_pos ⟨hm0, hmn⟩]
  · apply decrypt_int_encrypt
    rw [hn]
    apply rsa_correct kp.p kp.q kp.e kp.d m hp hq hpq
    · rw [← hphi]
      exact hed
    · rw [← hn]
      exact hmn

theorem claim_C1_witness :
    ∃ c, encrypt_int 2 exampleKeypair.e exampleKeypair.n = .ok c ∧
      decrypt_int c exampleKeypair.d exampleKeypair.n = 2 :=
  claim_C1_roundtrip 16 false none exampleKeypair exampleKeypair_generated
    exampleKeypair_p_prime exampleKeypair_q_prime 2 (by decide) (by decide)



/-- C2 (counterexample): the text round-trip fails for strings whose UTF-8
encoding starts with a zero byte, because `int_to_bytes` drops leading
zeros.  With the reachable keypair `exampleKeypair` and `s = "\x00A"`
(encoding `[0, 65]`, integer 65 < n), decryption returns `"A"`, not `s`. -/
theorem claim_C2_counterexample :
    GeneratedKeypair 16 false none exampleKeypair ∧
    bytes_to_int (utf8 "\x00A") < exampleKeypair.n ∧
    encrypt_message "\x00A" exampleKeypair.e exampleKeypair.n = .ok 2023452569 ∧
    decrypt_message 2023452569 exampleKeypair.d exampleKeypair.n = .ok "A" ∧
    "A" ≠ "\x00A" :=
  ⟨exampleKeypair_generated, by decide, by decide, by decide, by decide⟩

/-- C2 (amended): the text round-trip holds for every keypair returned by
`generate_keypair` with genuinely prime `p`, `q` and every string `s` whose
UTF-8 encoding is nonempty, starts with a nonzero byte, and encodes to an
integer below `n`. -/
theorem claim_C2_text_roundtrip (pb : Nat) (ur : Bool) (eb : Option Nat) (kp : KeyPair)
    (hkp : GeneratedKeypair pb ur eb kp) (hp : Nat.Prime kp.p) (hq : Nat.Prime kp.q)
    (s : String) (hne : utf8 s ≠ []) (hhead : (utf8 s).head? ≠ some 0)
    (hmn : bytes_to_int (utf8 s) < kp.n) :
    ∃ c, encrypt_message s kp.e kp.n = .ok c ∧ decrypt_message c kp.d kp.n = .ok s := by
  obtain ⟨b0, bs, heq⟩ := List.exists_cons_of_ne_nil hne
  have hb0 : b0 ≠ 0 := by
    intro h
    apply hhead
    rw [heq, h]
    rfl
  have hbytes : ∀ x ∈ utf8 s, x < 256 := utf8_bytes_lt s
  set m := bytes_to_int (utf8 s) with hm
  have hm0 : 0 < m := by
    rw [hm, heq, bytes_to_int_cons]
    have h1 : 1 ≤ b0 := by omega
    have h2 : 1 ≤ 256 ^ bs.length := Nat.one_le_two_pow.trans (Nat.pow_le_pow_left (by omega) _)
    have := Nat.mul_le_mul h1 h2
    omega
  obtain ⟨hn, hphi, hpq, _, hed, _⟩ := generatedKeypair_invariants pb ur eb kp hkp
  refine ⟨powMod m kp.e kp.n, ?_, ?_⟩
  · unfold encrypt_message
    rw [← hm, if_neg (by omega)]
    unfold encrypt_int
    rw [if_pos ⟨hm0, hmn⟩]
  · have hdec : decrypt_int (powMod m kp.e kp.n) kp.d kp.n = m := by
      apply decrypt_int_encrypt
      rw [hn]
      apply rsa_correct kp.p kp.q kp.e kp.d m hp hq hpq
      · rw [← hphi]
        exact hed
      · rw [← hn]
        exact hmn
    unfold decrypt_message
    rw [hdec, hm, heq]
    rw [int_to_bytes_bytes_to_int b0 bs hb0 (by rw [← heq]; exact hbytes), ← heq]
    rw [utf8Decode_utf8 s]

theorem claim_C2_witness :
    ∃ c, encrypt_message "A" exampleKeypair.e exampleKeypair.n = .ok c ∧
      decrypt_message c exampleKeypair.d exampleKeypair.n = .ok "A" :=
  claim_C2_text_roundtrip 16 false none exampleKeypair exampleKeypair_generated
    exampleKeypair_p_prime exampleKeypair_q_prime "A" (by decide) (by decide) (by decide)



/-- C3: every dict returned by `generate_keypair` satisfies the keypair
invariants, and `prime_bits < 16` is rejected with `InvalidParameter`
(no keypair is returned). -/
theorem claim_C3_keypair_invariants (pb : Nat) (ur : Bool) (eb : Option Nat) :
    (∀ kp : KeyPair, GeneratedKeypair pb ur eb kp →
      kp.n = kp.p * kp.q ∧ kp.phi = (kp.p - 1) * (kp.q - 1) ∧ kp.p ≠ kp.q ∧
      Nat.gcd kp.e kp.phi = 1 ∧ kp.e * kp.d % kp.phi = 1) ∧
    (pb < 16 → generateKeypairGuard pb = .error .InvalidParameter ∧
      ∀ kp : KeyPair, ¬ GeneratedKeypair pb ur eb kp) := by
  constructor
  · intro kp h
    obtain ⟨h1, h2, h3, h4, h5, _⟩ := generatedKeypair_invariants pb ur eb kp h
    exact ⟨h1, h2, h3, h4, h5⟩
  · intro hlt
    constructor
    · unfold generateKeypairGuard
      rw [if_pos hlt]
    · intro kp hk
      have := hk.1
      omega

theorem claim_C3_witness :
    (exampleKeypair.n = exampleKeypair.p * exampleKeypair.q ∧
     exampleKeypair.phi = (exampleKeypair.p - 1) * (exampleKeypair.q - 1) ∧
     exampleKeypair.p ≠ exampleKeypair.q ∧
     Nat.gcd exampleKeypair.e exampleKeypair.phi = 1 ∧
     exampleKeypair.e * exampleKeypair.d % exampleKeypair.phi = 1) ∧
    (generateKeypairGuard 8 = .error .InvalidParameter ∧
     ∀ kp : KeyPair, ¬ GeneratedKeypair 8 false none kp) :=
  ⟨(claim_C3_keypair_invariants 16 false none).1 exampleKeypair exampleKeypair_generated,
   (claim_C3_keypair_invariants 8 false none).2 (by decide)⟩

/-- C4 (counterexample): at `m = 1` the claim fails: `gcd(0, 1) = 1`, so
`modinv(0, 1)` succeeds and returns `0`, but `(0 * 0) mod 1 = 0`, not `1`. -/
theorem claim_C4_counterexample :
    Int.gcd 0 1 = 1 ∧ modinv 0 1 = .ok 0 ∧ ¬ ((0 : Int) * 0 % 1 = 1) :=
  ⟨by decide, by decide, by decide⟩

/-- C4 (amended): for every integer `a` and `m > 0`, `modinv` fails with
`NoInverseExists` exactly when `gcd(a, m) != 1`; otherwise it returns
`x` with `0 <= x < m` and `(a * x) mod m = 1 mod m` (which equals 1 for
every `m > 1`; at `m = 1` both sides are 0). -/
theorem claim_C4_modinv (a m : Int) (hm : 0 < m) :
    (modinv a m = .error .NoInverseExists ↔ Int.gcd a m ≠ 1) ∧
    (Int.gcd a m = 1 → ∃ x, modinv a m = .ok x) ∧
    (∀ x : Int, modinv a m = .ok x → 0 ≤ x ∧ x < m ∧ a * x % m = 1 % m) := by
  refine ⟨modinv_error_iff a m hm, ?_, ?_⟩
  · intro hgcd
    have hg := (egcd_spec a m hm).2
    unfold modinv
    rw [hgcd] at hg
    rw [if_neg (by omega)]
    exact ⟨_, rfl⟩
  · intro x hx
    have h := modinv_ok a m x hm hx
    exact ⟨h.2.1, h.2.2.1, h.2.2.2⟩

theorem claim_C4_witness :
    (modinv 3 10 = .error .NoInverseExists ↔ Int.gcd 3 10 ≠ 1) ∧
    (Int.gcd 3 10 = 1 → ∃ x, modinv 3 10 = .ok x) ∧
    (∀ x : Int, modinv 3 10 = .ok x → 0 ≤ x ∧ x < 10 ∧ 3 * x % 10 = 1 % 10) :=
  claim_C4_modinv 3 10 (by decide)

/-- C5: `is_probable_prime` returns `False` for every `n < 2`, and has no
false negatives: a prime `n` passes for every list of draws whose bases lie
in `[2, n-2]` (draw `r` encodes base `r + 2`; `r + 4 <= n` says the base is
at most `n - 2`), whatever the round count. -/
theorem claim_C5_no_false_negatives (n : Nat) (rnd : List Nat) :
    (n < 2 → is_probable_prime n rnd = false) ∧
    (Nat.Prime n → (∀ r ∈ rnd, r + 4 ≤ n) → is_probable_prime n rnd = true) := by
  constructor
  · intro h
    unfold is_probable_prime
    rw [if_pos h]
  · intro hp hr
    exact millerRabin_prime n hp rnd hr

theorem claim_C5_witness :
    is_probable_prime 1 [] = false ∧ is_probable_prime 31 [0] = true :=
  ⟨(claim_C5_no_false_negatives 1 []).1 (by decide),
   (claim_C5_no_false_negatives 31 [0]).2 (by norm_num)
     (by intro r hr; simp at hr; omega)⟩

/-- C6: for `bits >= 2`, every output of `generate_prime(bits)` is odd, has
bit length exactly `bits`, and passed `is_probable_prime` at the default
round count 40. -/
theorem claim_C6_generate_prime (bits p : Nat) (hb : 2 ≤ bits) (h : GeneratePrimeOutput bits p) :
    p % 2 = 1 ∧ bitLen p = bits ∧ OraclePasses p 40 := by
  obtain ⟨r, hr, hpeq, hop⟩ := h
  have hodd : p % 2 = 1 := by
    have ht : p.testBit 0 = true := by
      rw [hpeq, Nat.testBit_or]
      simp
    rw [Nat.testBit_zero] at ht
    simpa using ht
  refine ⟨hodd, ?_, hop⟩
  have hlow : 2 ^ (bits - 1) ≤ p := by
    apply Nat.testBit_implies_ge
    rw [hpeq, Nat.testBit_or, Nat.testBit_or, Nat.testBit_two_pow_self]
    simp
  have hup : p < 2 ^ bits := by
    rw [hpeq]
    apply Nat.or_lt_two_pow
    · apply Nat.or_lt_two_pow hr
      exact Nat.pow_lt_pow_right (by omega) (by omega)
    · calc (1 : Nat) < 2 ^ 1 := by norm_num
        _ ≤ 2 ^ bits := Nat.pow_le_pow_right (by omega) (by omega)
  have hsplit : bits - 1 + 1 = bits := by omega
  rw [← hsplit]
  exact bitLen_eq_of_bounds p (bits - 1) hlow (by rw [hsplit]; exact hup)

theorem claim_C6_witness :
    (32771 : Nat) % 2 = 1 ∧ bitLen 32771 = 16 ∧ OraclePasses 32771 40 :=
  claim_C6_generate_prime 16 32771 (by decide) exampleKeypair_generated.2.1

/-- C7: every public exponent selected during keypair construction (fixed
65537 with random fallback, or `choose_random_coprime` in range or
bit-length mode) satisfies `2 <= e < phi` and `gcd(e, phi) = 1`. -/
theorem claim_C7_exponent_bounds (pb : Nat) (ur : Bool) (eb : Option Nat) (kp : KeyPair)
    (hkp : GeneratedKeypair pb ur eb kp) :
    2 ≤ kp.e ∧ kp.e < kp.phi ∧ Nat.gcd kp.e kp.phi = 1 := by
  obtain ⟨_, _, _, h4, _, h6, h7, _⟩ := generatedKeypair_invariants pb ur eb kp hkp
  exact ⟨h6, h7, h4⟩

theorem claim_C7_witness :
    2 ≤ exampleKeypair.e ∧ exampleKeypair.e < exampleKeypair.phi ∧
    Nat.gcd exampleKeypair.e exampleKeypair.phi = 1 :=
  claim_C7_exponent_bounds 16 false none exampleKeypair exampleKeypair_generated



/-- C8: `encrypt_int(m, e, n)` fails with `InvalidParameter` exactly when `m`
is outside the open range `(0, n)` (in particular at `m = 0` and `m = n`),
and otherwise returns `m ^ e mod n`. -/
theorem claim_C8_encrypt_int (m e n : Nat) :
    (encrypt_int m e n = .error .InvalidParameter ↔ ¬ (0 < m ∧ m < n)) ∧
    (0 < m → m < n → encrypt_int m e n = .ok (m ^ e % n)) := by
  constructor
  · unfold encrypt_int
    by_cases h : 0 < m ∧ m < n
    · rw [if_pos h]
      simp [h]
    · rw [if_neg h]
      simp [h]
  · intro h1 h2
    unfold encrypt_int
    rw [if_pos ⟨h1, h2⟩, powMod_eq]

theorem claim_C8_witness :
    (encrypt_int 5 3 5 = .error .InvalidParameter ↔ ¬ (0 < 5 ∧ 5 < 5)) ∧
    (encrypt_int 0 3 5 = .error .InvalidParameter ↔ ¬ (0 < 0 ∧ 0 < 5)) ∧
    encrypt_int 2 3 5 = .ok (2 ^ 3 % 5) :=
  ⟨(claim_C8_encrypt_int 5 3 5).1, (claim_C8_encrypt_int 0 3 5).1,
   (claim_C8_encrypt_int 2 3 5).2 (by decide) (by decide)⟩

/-- C9 (counterexample): `encrypt_message` does not succeed on every text
whose encoding is below `n`: the empty string encodes to `m = 0 < n` and
fails with `InvalidParameter` (raised by the inner `encrypt_int`), an error
kind other than `MessageTooLarge`. -/
theorem claim_C9_counterexample :
    bytes_to_int (utf8 "") < 5 ∧
    encrypt_message "" 3 5 = .error .InvalidParameter ∧
    RsaError.InvalidParameter ≠ RsaError.MessageTooLarge :=
  ⟨by decide, by decide, by decide⟩

/-- C9 (amended): `encrypt_message` fails with `MessageTooLarge` iff
`m >= n` (`m` the big-endian integer of the UTF-8 bytes); for `0 < m < n`
it succeeds, returning exactly `encrypt_int(m, e, n)`; for `m = 0 < n`
(text empty or all NUL) it instead fails with `InvalidParameter`. -/
theorem claim_C9_encrypt_message (s : String) (e n : Nat) :
    (encrypt_message s e n = .error .MessageTooLarge ↔ n ≤ bytes_to_int (utf8 s)) ∧
    (0 < bytes_to_int (utf8 s) → bytes_to_int (utf8 s) < n →
      encrypt_message s e n = encrypt_int (bytes_to_int (utf8 s)) e n ∧
      encrypt_message s e n = .ok (powMod (bytes_to_int (utf8 s)) e n)) ∧
    (bytes_to_int (utf8 s) = 0 → encrypt_message s e n = .error .InvalidParameter ∨
      encrypt_message s e n = .error .MessageTooLarge) ∧
    (bytes_to_int (utf8 s) = 0 → 0 < n → encrypt_message s e n = .error .InvalidParameter) := by
  set m := bytes_to_int (utf8 s) with hm
  refine ⟨?_, ?_, ?_, ?_⟩
  · unfold encrypt_message
    rw [← hm]
    by_cases h : m ≥ n
    · rw [if_pos h]
      simp [h]
    · rw [if_neg h]
      unfold encrypt_int
      constructor
      · by_cases h2 : 0 < m ∧ m < n
        · rw [if_pos h2]
          intro hc
          cases hc
        · rw [if_neg h2]
          intro hc
          cases hc
      · intro hc
        omega
  · intro h1 h2
    unfold encrypt_message
    rw [← hm, if_neg (by omega)]
    constructor
    · rfl
    · unfold encrypt_int
      rw [if_pos ⟨h1, h2⟩]
  · intro h0
    unfold encrypt_message
    rw [← hm]
    by_cases h : m ≥ n
    · rw [if_pos h]
      right
      rfl
    · rw [if_neg h]
      left
      unfold encrypt_int
      rw [if_neg (by omega)]
  · intro h0 hn
    unfold encrypt_message
    rw [← hm, if_neg (by omega)]
    unfold encrypt_int
    rw [if_neg (by omega)]

theorem claim_C9_witness :
    (encrypt_message "A" 3 100 = .error .MessageTooLarge ↔ 100 ≤ bytes_to_int (utf8 "A")) ∧
    encrypt_message "A" 3 100 = .ok (powMod (bytes_to_int (utf8 "A")) 3 100) ∧
    encrypt_message "\x00" 3 100 = .error .InvalidParameter :=
  ⟨(claim_C9_encrypt_message "A" 3 100).1,
   ((claim_C9_encrypt_message "A" 3 100).2.1 (by decide) (by decide)).2,
   (claim_C9_encrypt_message "\x00" 3 100).2.2.2 (by decide) (by decide)⟩

/-- C10: `int_to_bytes 0 = []` (resolving the zero case as the empty byte
string); `int_to_bytes i` always has exactly `ceil(bit_length(i) / 8)` bytes
and `bytes_to_int` inverts it; and the reverse composition fails on every
byte string with a leading zero byte. -/
theorem claim_C10_transcoder :
    int_to_bytes 0 = [] ∧
    (∀ i : Nat, (int_to_bytes i).length = (bitLen i + 7) / 8 ∧
      bytes_to_int (int_to_bytes i) = i) ∧
    (∀ bs : List Nat, (∀ x ∈ bs, x < 256) →
      int_to_bytes (bytes_to_int (0 :: bs)) ≠ 0 :: bs) :=
  ⟨rfl, fun i => ⟨int_to_bytes_length i, bytes_to_int_int_to_bytes i⟩,
   fun bs hb => int_to_bytes_leading_zero bs hb⟩

theorem claim_C10_witness :
    bytes_to_int (int_to_bytes 5) = 5 ∧ int_to_bytes (bytes_to_int (0 :: [65])) ≠ 0 :: [65] :=
  ⟨(claim_C10_transcoder.2.1 5).2, claim_C10_transcoder.2.2 [65] (by decide)⟩


end RsaCipher
